import Mathlib

/-!
Verification of the sentence-segmentation-and-correction pipeline
(grammar correction of a LaTeX document).

The development is a shallow embedding of the Python source:

* `src/preprocessing.py` : `extract_sentence_from_queue` and the
  segmentation retry loop in `preprocessing_main` / `process_sentence`;
* `src/main.py` : `process_sentence` (segmentation loop + correction loop
  with `max_correction_attempts = 8`) and the driver loop in `main`;
* `src/correct.py` : `grammar_correction_main` (outer loop with
  `max_attempts = 5` and the nested QA retry loop with the
  `max_qa_attempts = 5` bound).

Strings are modelled as `List Char` (Python strings are sequences of code
points, and slicing / `find` work on code points).  The language model is
an external collaborator; its responses are modelled as oracle streams
`Nat → _`, indexed by the number of calls made so far.  Confidence scores
are modelled as rationals; the only operation the code performs on them is
the comparison with the literal `0.5`, which is exact in both floats and
rationals.
-/

/-- Python `str.strip()` on a list of characters: drop leading and trailing
whitespace. -/
def trimChars (l : List Char) : List Char :=
  ((l.dropWhile Char.isWhitespace).reverse.dropWhile Char.isWhitespace).reverse

/-- Does `s` occur at the very beginning of `chunk`?  (`chunk[0:len(s)] == s`.) -/
def matchesAt (chunk s : List Char) : Bool :=
  chunk.take s.length = s

/-- Python `chunk.find(s)` on lists of characters: the least index at which
`s` occurs as a contiguous sublist of `chunk`, `none` when it does not occur
(Python returns `-1` there; the code only tests `idx == -1`, so an `Option`
is a faithful rendering).  `find` of the empty string is `0`. -/
def subFind : List Char → List Char → Option Nat
  | chunk, s =>
    if matchesAt chunk s then some 0
    else
      match chunk with
      | [] => none
      | _ :: t => (subFind t s).map (· + 1)

/-- `extract_sentence_from_queue(text, max_chunk)` from `src/preprocessing.py`
(lines 12-65), with the raw LLM reply `resp` passed as an oracle input.
`chunk = text[:max_chunk]`; `sentence = resp.strip()`; if
`chunk.find(sentence) == -1` then `end_index = len(chunk)`, otherwise
`end_index = idx + len(sentence)`.  Returns `(sentence, end_index)`. -/
def extract_sentence_from_queue (text : List Char) (max_chunk : Nat)
    (resp : List Char) : List Char × Nat :=
  let chunk := text.take max_chunk
  let sentence := trimChars resp
  match subFind chunk sentence with
  | none => (sentence, chunk.length)
  | some idx => (sentence, idx + sentence.length)

/-- If `s` occurs in `chunk` at index `i`, the occurrence ends within `chunk`. -/
theorem subFind_le (chunk s : List Char) (i : Nat)
    (h : subFind chunk s = some i) : i + s.length ≤ chunk.length := by
  induction chunk generalizing i with
  | nil =>
    rw [subFind] at h
    by_cases hm : matchesAt [] s
    · simp [hm] at h
      subst h
      have : s.length = 0 := by
        have := congrArg List.length (of_decide_eq_true hm)
        simpa using this.symm
      simp [this]
    · simp [hm] at h
  | cons c t ih =>
    rw [subFind] at h
    by_cases hm : matchesAt (c :: t) s
    · simp [hm] at h
      subst h
      have hs : (c :: t).take s.length = s := of_decide_eq_true hm
      have := congrArg List.length hs
      simp only [List.length_take] at this
      omega
    · simp [hm] at h
      obtain ⟨j, hj, rfl⟩ := h
      have := ih j hj
      simp only [List.length_cons]
      omega

/-- The end index computed by the extractor never exceeds the length of the
searched text. -/
theorem extract_end_le (text : List Char) (max_chunk : Nat) (resp : List Char) :
    (extract_sentence_from_queue text max_chunk resp).2 ≤ text.length := by
  cases h : subFind (text.take max_chunk) (trimChars resp) with
  | none =>
    simp only [extract_sentence_from_queue, h]
    simp
  | some idx =>
    have h1 := subFind_le _ _ _ h
    have h2 : (text.take max_chunk).length ≤ text.length := by
      simp
    simp only [extract_sentence_from_queue, h]
    omega

/-- One attempt of the segmentation retry loop: the size bound passed to the
extractor, the extracted sentence and end index, and the verifier verdict. -/
structure SegAttempt where
  bound : Nat
  sentence : List Char
  end_index : Nat
  valid : Bool
deriving DecidableEq, Repr

/-- Trace semantics of the segmentation retry loop shared by
`process_sentence` (`src/main.py` lines 15-31) and `preprocessing_main`
(`src/preprocessing.py` lines 128-151): starting from `bound` with
`remaining` attempts left, each iteration extracts with the current bound,
consults the boundary verifier, and either stops (verdict valid) or retries
with the bound increased by 200.  `ext k` and `ver k` are the extractor
reply and the verifier verdict consulted by the k-th attempt (the code
performs one extractor call and one verifier call per iteration).
Element i of the trace records iteration i of the while loop. -/
def segTraceAux (doc : List Char) (ext : Nat → List Char) (ver : Nat → Bool) :
    Nat → Nat → Nat → List SegAttempt
  | 0, _, _ => []
  | n + 1, bound, k =>
    let p := extract_sentence_from_queue doc bound (ext k)
    let v := ver k
    let a : SegAttempt := ⟨bound, p.1, p.2, v⟩
    if v then [a] else a :: segTraceAux doc ext ver n (bound + 200) (k + 1)

/-- The segmentation loop of the source starts with bound 500 and budget 5. -/
def segTrace (doc : List Char) (ext : Nat → List Char) (ver : Nat → Bool) :
    List SegAttempt :=
  segTraceAux doc ext ver 5 500 0

/-- Final values of the loop variables `sentence`, `end_index`,
`verification["is_valid"]` when the segmentation while loop exits: the
result of the verified attempt, or of the last attempt when the budget is
spent (the code then logs a warning and uses the sentence as is). -/
def segRun (doc : List Char) (ext : Nat → List Char) (ver : Nat → Bool) :
    Nat → Nat → Nat → List Char × Nat × Bool
  | 0, _, _ => ([], 0, false)
  | n + 1, bound, k =>
    let p := extract_sentence_from_queue doc bound (ext k)
    if ver k then (p.1, p.2, true)
    else
      match n with
      | 0 => (p.1, p.2, false)
      | m + 1 => segRun doc ext ver (m + 1) (bound + 200) (k + 1)

/-- A Correction Proposal as parsed from the model reply
(`GrammarCorrection` schema in `src/models.py`).  `confidence` is optional
because `src/main.py` line 44 explicitly tests `"confidence" not in
correction`; `explanation` is read with `.get("explanation", "")`. -/
structure Correction where
  corrected_sentence : List Char
  confidence : Option ℚ
  explanation : Option (List Char)
deriving DecidableEq, Repr

/-- A QA verdict as parsed from the model reply (`QualityAssurance` schema
in `src/models.py`).  The three boolean fields are optional because both
loops explicitly test for their presence; `concerns` is read with
`.get("concerns", [])`. -/
structure QAResult where
  is_valid : Option Bool
  maintains_meaning : Option Bool
  technical_accuracy : Option Bool
  concerns : Option (List (List Char))
deriving DecidableEq, Repr

/-- Outcome of the correction while loop of `process_sentence`
(`src/main.py` lines 37-71): either some proposal was accepted by QA
(`QA_passed = True`, carrying the accepting proposal and verdict), or the
attempt budget was exhausted. -/
inductive PSLoopRes where
  | accepted (c : Correction) (q : QAResult)
  | exhausted
deriving DecidableEq, Repr

/-- The correction while loop of `process_sentence` (`src/main.py` lines
41-71).  `P pc` is the proposal returned by the pc-th call to
`grammar_correct_proposal`; `Q qc` is the verdict returned by the qc-th
call to `quality_assurance_check`.  Arguments: remaining attempts
(`max_correction_attempts - correction_attempt`, initially 8), proposer
calls made so far, QA calls made so far.  Returns the outcome together
with the total number of proposer calls and of QA calls. -/
def psLoop (P : Nat → Correction) (Q : Nat → QAResult) :
    Nat → Nat → Nat → PSLoopRes × Nat × Nat
  | 0, pc, qc => (.exhausted, pc, qc)
  | n + 1, pc, qc =>
    let c := P pc
    match c.confidence with
    | none => psLoop P Q n (pc + 1) qc
    | some conf =>
      if conf ≤ 1 / 2 then psLoop P Q n (pc + 1) qc
      else
        let q := Q qc
        match q.is_valid, q.maintains_meaning, q.technical_accuracy with
        | some v, some m, some t =>
          if v && m && t then (.accepted c q, pc + 1, qc + 1)
          else psLoop P Q n (pc + 1) (qc + 1)
        | _, _, _ => psLoop P Q n (pc + 1) (qc + 1)

/-- The `result` dict built by `process_sentence` (`src/main.py` lines
72-81). -/
structure PSEntry where
  original : List Char
  final : List Char
  has_changes : Bool
  qa_concerns : List (List Char)
  length : Nat
  explanation : List Char
deriving DecidableEq, Repr

/-- The fallback marker `"Failed to find valid correction"`. -/
def failMsg : List Char := "Failed to find valid correction".toList

/-- Construction of the `result` dict of `process_sentence` from the loop
outcome (`src/main.py` lines 72-81): on `QA_passed` the final text is the
accepted corrected sentence and `has_changes = (sentence !=
corrected_sentence)`; otherwise the original sentence is kept with
`has_changes = False` and the fallback concern. -/
def psEntryOf (s : List Char) : PSLoopRes → PSEntry
  | .accepted c q =>
    { original := s
      final := c.corrected_sentence
      has_changes := decide (s ≠ c.corrected_sentence)
      qa_concerns := q.concerns.getD []
      length := s.length
      explanation := c.explanation.getD [] }
  | .exhausted =>
    { original := s
      final := s
      has_changes := false
      qa_concerns := [failMsg]
      length := s.length
      explanation := [] }

/-- `process_sentence(document)` from `src/main.py`: segmentation loop
(bound 500, budget 5), then the correction loop (budget 8), returning
`(result, document[end_index:], end_index)`. -/
def process_sentence (doc : List Char) (ext : Nat → List Char)
    (ver : Nat → Bool) (P : Nat → Correction) (Q : Nat → QAResult) :
    PSEntry × List Char × Nat :=
  let seg := segRun doc ext ver 5 500 0
  let sentence := seg.1
  let e := seg.2.1
  (psEntryOf sentence (psLoop P Q 8 0 0).1, doc.drop e, e)

/-- The driver loop of `main` (`src/main.py` lines 115-125): while the
stripped document is non-empty, process one sentence and advance by the
returned `end_index`, accumulating `chars_processed`.  The four oracle
families are indexed by the driver step (first index) and by the call
number within that step (second index).  `fuel` bounds the number of
driver iterations modelled; `none` means the loop was still running after
`fuel` iterations.  On normal exit the result is `(chars_processed,
remaining document)`. -/
def mainLoop (E : Nat → Nat → List Char) (V : Nat → Nat → Bool)
    (P : Nat → Nat → Correction) (Q : Nat → Nat → QAResult) :
    Nat → List Char → Nat → Nat → Option (Nat × List Char)
  | 0, doc, consumed, _ =>
    if trimChars doc = [] then some (consumed, doc) else none
  | f + 1, doc, consumed, step =>
    if trimChars doc = [] then some (consumed, doc)
    else
      let r := process_sentence doc (E step) (V step) (P step) (Q step)
      mainLoop E V P Q f r.2.1 (consumed + r.2.2) (step + 1)

/-- Result of one pass of the inner QA retry loop of
`grammar_correction_main` once it stops: an accepted verdict (all three
booleans present and true), a rejected verdict (all three present, at
least one false), or `fuelOut` when the loop is still retrying after the
given number of QA calls (the source loop has no effective bound: its
counter `num_attempts` is never incremented, see `src/correct.py` lines
116-135). -/
inductive InnerRes where
  | accepted (q : QAResult)
  | rejected (q : QAResult)
  | fuelOut
deriving DecidableEq, Repr

/-- The inner QA retry loop of `grammar_correction_main` (`src/correct.py`
lines 116-135), fuelled: each iteration calls `quality_assurance_check`;
when the verdict carries all three required boolean fields the loop stops
(accept on all-true via `break`, otherwise reject via `qa_yielded_result`);
when a field is missing it retries, and because `num_attempts` is never
incremented the `num_attempts < max_qa_attempts` guard never becomes
false, so only the fuel stops the model.  Returns the stop reason and the
updated QA call count. -/
def innerQA (Q : Nat → QAResult) : Nat → Nat → InnerRes × Nat
  | 0, qc => (.fuelOut, qc)
  | n + 1, qc =>
    let q := Q qc
    match q.is_valid, q.maintains_meaning, q.technical_accuracy with
    | some v, some m, some t =>
      if v && m && t then (.accepted q, qc + 1) else (.rejected q, qc + 1)
    | _, _, _ => innerQA Q n (qc + 1)

/-- Outcome of the outer correction loop of `grammar_correction_main`
(`src/correct.py` lines 100-135) for one sentence: an accepted
proposal/verdict pair, exhaustion of the five outer attempts (carrying the
last proposal, which the code still reads at line 138), the `KeyError`
raised by `correction["confidence"]` when the field is missing, or
divergence of the inner QA loop (fuel exhausted). -/
inductive GcmRes where
  | accepted (c : Correction) (q : QAResult)
  | exhausted (last : Option Correction)
  | keyError
  | diverged
deriving DecidableEq, Repr

/-- The outer correction loop of `grammar_correction_main`
(`src/correct.py` lines 100-135).  `P pc` is the pc-th proposal, `Q qc`
the qc-th QA verdict, `innerFuel` the fuel given to each inner QA loop.
Arguments: remaining outer attempts (initially 5), proposer calls made,
QA calls made, last proposal seen.  A proposal with confidence at most
0.5 spends one attempt without any QA call; a rejected verdict spends one
attempt (`attempt += 1` inside the inner loop); an accepted verdict stops
everything.  Returns the outcome with total proposer and QA call counts. -/
def gcmLoop (P : Nat → Correction) (Q : Nat → QAResult) (innerFuel : Nat) :
    Nat → Nat → Nat → Option Correction → GcmRes × Nat × Nat
  | 0, pc, qc, last => (.exhausted last, pc, qc)
  | n + 1, pc, qc, _ =>
    let c := P pc
    match c.confidence with
    | none => (.keyError, pc + 1, qc)
    | some conf =>
      if conf ≤ 1 / 2 then gcmLoop P Q innerFuel n (pc + 1) qc (some c)
      else
        match innerQA Q innerFuel qc with
        | (.accepted q, qc2) => (.accepted c q, pc + 1, qc2)
        | (.rejected _, qc2) => gcmLoop P Q innerFuel n (pc + 1) qc2 (some c)
        | (.fuelOut, qc2) => (.diverged, pc + 1, qc2)

/-- The `result_entry` dict built by `grammar_correction_main`
(`src/correct.py` lines 137-144). -/
structure GcmEntry where
  original : List Char
  final : List Char
  has_changes : Bool
  qa_concerns : List (List Char)
deriving DecidableEq, Repr

/-- Construction of `result_entry` (`src/correct.py` lines 137-144):
`has_changes = (original_sentence != correction["corrected_sentence"]) and
QA_passed`; `final` is the corrected sentence only when `QA_passed`.  No
entry is produced when the loop raised `KeyError`, when the inner QA loop
diverged, or in the synthetic zero-budget case where no proposal exists. -/
def gcmEntryOf (orig : List Char) : GcmRes → Option GcmEntry
  | .accepted c q =>
    some
      { original := orig
        final := c.corrected_sentence
        has_changes := decide (orig ≠ c.corrected_sentence) && true
        qa_concerns := q.concerns.getD [] }
  | .exhausted (some c) =>
    some
      { original := orig
        final := orig
        has_changes := decide (orig ≠ c.corrected_sentence) && false
        qa_concerns := [failMsg] }
  | .exhausted none => none
  | .keyError => none
  | .diverged => none

/-- The correction loop of `process_sentence` accepts only verdicts whose
three boolean fields are present and true. -/
theorem psLoop_accepted_verdict (P : Nat → Correction) (Q : Nat → QAResult) :
    ∀ n pc qc c q pc2 qc2, psLoop P Q n pc qc = (.accepted c q, pc2, qc2) →
      q.is_valid = some true ∧ q.maintains_meaning = some true ∧
        q.technical_accuracy = some true := by
  intro n
  induction n with
  | zero =>
    intro pc qc c q pc2 qc2 h
    simp [psLoop] at h
  | succ n ih =>
    intro pc qc c q pc2 qc2 h
    rw [psLoop] at h
    simp only at h
    split at h
    · exact ih _ _ _ _ _ _ h
    · split at h
      · exact ih _ _ _ _ _ _ h
      · split at h
        · rename_i v m t hv hm ht
          split at h
          · rename_i hb
            obtain ⟨h1, -, -⟩ := Prod.mk.injEq .. ▸ h
            cases h1
            simp only [Bool.and_eq_true] at hb
            refine ⟨?_, ?_, ?_⟩ <;> simp_all
          · exact ih _ _ _ _ _ _ h
        · exact ih _ _ _ _ _ _ h

/-- The inner QA loop of `grammar_correction_main` accepts only verdicts
whose three boolean fields are present and true. -/
theorem innerQA_accepted_verdict (Q : Nat → QAResult) :
    ∀ f qc q qc2, innerQA Q f qc = (.accepted q, qc2) →
      q.is_valid = some true ∧ q.maintains_meaning = some true ∧
        q.technical_accuracy = some true := by
  intro f
  induction f with
  | zero =>
    intro qc q qc2 h
    simp [innerQA] at h
  | succ f ih =>
    intro qc q qc2 h
    rw [innerQA] at h
    split at h
    · rename_i v m t hv hm ht
      split at h
      · rename_i hb
        obtain ⟨h1, -⟩ := Prod.mk.injEq .. ▸ h
        cases h1
        simp only [Bool.and_eq_true] at hb
        refine ⟨?_, ?_, ?_⟩ <;> simp_all
      · simp at h
    · exact ih _ _ _ h

/-- The outer loop of `grammar_correction_main` accepts only verdicts whose
three boolean fields are present and true. -/
theorem gcmLoop_accepted_verdict (P : Nat → Correction) (Q : Nat → QAResult)
    (innerFuel : Nat) :
    ∀ n pc qc last c q pc2 qc2,
      gcmLoop P Q innerFuel n pc qc last = (.accepted c q, pc2, qc2) →
      q.is_valid = some true ∧ q.maintains_meaning = some true ∧
        q.technical_accuracy = some true := by
  intro n
  induction n with
  | zero =>
    intro pc qc last c q pc2 qc2 h
    simp [gcmLoop] at h
  | succ n ih =>
    intro pc qc last c q pc2 qc2 h
    rw [gcmLoop] at h
    split at h
    · simp at h
    · split at h
      · exact ih _ _ _ _ _ _ _ h
      · split at h
        · rename_i q2 qc3 hinner
          obtain ⟨h1, -⟩ := Prod.mk.injEq .. ▸ h
          cases h1
          exact innerQA_accepted_verdict Q _ _ _ _ hinner
        · exact ih _ _ _ _ _ _ _ h
        · simp at h

/-- The correction loop of `process_sentence` makes at most `n` proposer
calls beyond the `pc` already made when entering with `n` attempts left. -/
theorem psLoop_calls_le (P : Nat → Correction) (Q : Nat → QAResult) :
    ∀ n pc qc, (psLoop P Q n pc qc).2.1 ≤ pc + n := by
  intro n
  induction n with
  | zero => intro pc qc; simp [psLoop]
  | succ n ih =>
    intro pc qc
    rw [psLoop]
    simp only
    split
    · have := ih (pc + 1) qc; omega
    · split
      · have := ih (pc + 1) qc; omega
      · split
        · split
          · simp
          · have := ih (pc + 1) (qc + 1); omega
        · have := ih (pc + 1) (qc + 1); omega

/-- The outer loop of `grammar_correction_main` makes at most `n` proposer
calls beyond the `pc` already made when entering with `n` attempts left. -/
theorem gcmLoop_calls_le (P : Nat → Correction) (Q : Nat → QAResult)
    (innerFuel : Nat) :
    ∀ n pc qc last, (gcmLoop P Q innerFuel n pc qc last).2.1 ≤ pc + n := by
  intro n
  induction n with
  | zero => intro pc qc last; simp [gcmLoop]
  | succ n ih =>
    intro pc qc last
    rw [gcmLoop]
    split
    · simp
    · split
      · have := ih (pc + 1) qc (some (P pc)); omega
      · split
        · simp
        · rename_i q2 qc3 hinner
          have := ih (pc + 1) qc3 (some (P pc)); omega
        · simp

/-- A proposal whose confidence is present but at most 0.5 spends exactly
one attempt of the `process_sentence` correction loop: the loop continues
with one more proposer call and the same QA call count (no QA call for
that proposal). -/
theorem psLoop_skip_lowconf (P : Nat → Correction) (Q : Nat → QAResult)
    (n pc qc : Nat) (x : ℚ) (hx : (P pc).confidence = some x)
    (hle : x ≤ 1 / 2) :
    psLoop P Q (n + 1) pc qc = psLoop P Q n (pc + 1) qc := by
  rw [psLoop]
  simp only [hx]
  rw [if_pos hle]

/-- A proposal whose confidence field is missing spends exactly one attempt
of the `process_sentence` correction loop, with no QA call. -/
theorem psLoop_skip_noconf (P : Nat → Correction) (Q : Nat → QAResult)
    (n pc qc : Nat) (hx : (P pc).confidence = none) :
    psLoop P Q (n + 1) pc qc = psLoop P Q n (pc + 1) qc := by
  rw [psLoop]
  simp only [hx]

/-- A proposal whose confidence is present but at most 0.5 spends exactly
one attempt of the `grammar_correction_main` outer loop: the loop continues
with one more proposer call, the same QA call count, and the proposal
recorded as the last one seen. -/
theorem gcmLoop_skip_lowconf (P : Nat → Correction) (Q : Nat → QAResult)
    (innerFuel n pc qc : Nat) (last : Option Correction) (x : ℚ)
    (hx : (P pc).confidence = some x) (hle : x ≤ 1 / 2) :
    gcmLoop P Q innerFuel (n + 1) pc qc last =
      gcmLoop P Q innerFuel n (pc + 1) qc (some (P pc)) := by
  rw [gcmLoop]
  simp only [hx]
  rw [if_pos hle]

/-- When every proposal in the stream is gated (confidence missing or at
most 0.5), the `process_sentence` correction loop spends all its attempts
one proposal at a time, never calls QA, and exhausts. -/
theorem psLoop_all_gated (P : Nat → Correction) (Q : Nat → QAResult)
    (hP : ∀ k, (P k).confidence = none ∨
      ∃ x, (P k).confidence = some x ∧ x ≤ 1 / 2) :
    ∀ n pc qc, psLoop P Q n pc qc = (.exhausted, pc + n, qc) := by
  intro n
  induction n with
  | zero => intro pc qc; simp [psLoop]
  | succ n ih =>
    intro pc qc
    rcases hP pc with hnone | ⟨x, hx, hle⟩
    · rw [psLoop_skip_noconf P Q n pc qc hnone, ih]
      have h1 : pc + 1 + n = pc + (n + 1) := by omega
      rw [h1]
    · rw [psLoop_skip_lowconf P Q n pc qc x hx hle, ih]
      have h1 : pc + 1 + n = pc + (n + 1) := by omega
      rw [h1]

/-- When every proposal in the stream has confidence present but at most
0.5, the `grammar_correction_main` outer loop spends all its attempts one
proposal at a time, never calls QA, and exhausts carrying the last
proposal. -/
theorem gcmLoop_all_lowconf (P : Nat → Correction) (Q : Nat → QAResult)
    (innerFuel : Nat)
    (hP : ∀ k, ∃ x, (P k).confidence = some x ∧ x ≤ 1 / 2) :
    ∀ n pc qc last, gcmLoop P Q innerFuel (n + 1) pc qc last =
      (.exhausted (some (P (pc + n))), pc + n + 1, qc) := by
  intro n
  induction n with
  | zero =>
    intro pc qc last
    obtain ⟨x, hx, hle⟩ := hP pc
    rw [gcmLoop_skip_lowconf P Q innerFuel 0 pc qc last x hx hle]
    simp [gcmLoop]
  | succ n ih =>
    intro pc qc last
    obtain ⟨x, hx, hle⟩ := hP pc
    rw [gcmLoop_skip_lowconf P Q innerFuel (n + 1) pc qc last x hx hle, ih]
    have h1 : pc + 1 + n = pc + (n + 1) := by omega
    rw [h1]

/-- When every QA reply is missing its `is_valid` field, the inner QA loop
of `grammar_correction_main` never stops on its own: for every fuel value
it is still retrying, having made one QA call per fuel unit. -/
theorem innerQA_missing_fields (Q : Nat → QAResult)
    (hQ : ∀ k, (Q k).is_valid = none) :
    ∀ f qc, innerQA Q f qc = (.fuelOut, qc + f) := by
  intro f
  induction f with
  | zero => intro qc; simp [innerQA]
  | succ f ih =>
    intro qc
    rw [innerQA]
    have h := hQ qc
    split
    · rename_i v m t hv hm ht
      rw [h] at hv
      cases hv
    · rw [ih]
      have h1 : qc + 1 + f = qc + (f + 1) := by omega
      rw [h1]

/-- When the document is non-empty, the chunk window is at least one
character wide, and the stripped extractor reply is non-empty, the
extractor consumes at least one character. -/
theorem extract_end_pos (text : List Char) (max_chunk : Nat)
    (resp : List Char) (hdoc : text ≠ []) (hmc : 1 ≤ max_chunk)
    (hresp : trimChars resp ≠ []) :
    1 ≤ (extract_sentence_from_queue text max_chunk resp).2 := by
  cases h : subFind (text.take max_chunk) (trimChars resp) with
  | none =>
    simp only [extract_sentence_from_queue, h]
    have hlen : 0 < text.length := List.length_pos.mpr hdoc
    simp only [List.length_take]
    omega
  | some idx =>
    simp only [extract_sentence_from_queue, h]
    have : 0 < (trimChars resp).length := List.length_pos.mpr hresp
    omega

/-- The end index produced by the segmentation loop never exceeds the
document length. -/
theorem segRun_end_le (doc : List Char) (ext : Nat → List Char)
    (ver : Nat → Bool) :
    ∀ n bound k, (segRun doc ext ver n bound k).2.1 ≤ doc.length := by
  intro n
  induction n with
  | zero => intro bound k; simp [segRun]
  | succ n ih =>
    intro bound k
    rw [segRun.eq_def]
    simp only
    split
    · exact extract_end_le doc bound (ext k)
    · split
      · exact extract_end_le doc bound (ext k)
      · exact ih (bound + 200) (k + 1)

/-- When the document is non-empty, the starting bound is positive and all
stripped extractor replies are non-empty, the segmentation loop consumes
at least one character. -/
theorem segRun_end_pos (doc : List Char) (ext : Nat → List Char)
    (ver : Nat → Bool) (hdoc : doc ≠ [])
    (hresp : ∀ j, trimChars (ext j) ≠ []) :
    ∀ n bound k, 1 ≤ bound → 1 ≤ n →
      1 ≤ (segRun doc ext ver n bound k).2.1 := by
  intro n
  induction n with
  | zero => intro bound k _ h1; omega
  | succ n ih =>
    intro bound k hb _
    rw [segRun.eq_def]
    simp only
    split
    · exact extract_end_pos doc bound (ext k) hdoc hb (hresp k)
    · split
      · exact extract_end_pos doc bound (ext k) hdoc hb (hresp k)
      · exact ih (bound + 200) (k + 1) (by omega) (by omega)

/-- The segmentation loop makes at most `n` attempts when entered with `n`
attempts remaining. -/
theorem segTraceAux_length_le (doc : List Char) (ext : Nat → List Char)
    (ver : Nat → Bool) :
    ∀ n bound k, (segTraceAux doc ext ver n bound k).length ≤ n := by
  intro n
  induction n with
  | zero => intro bound k; simp [segTraceAux]
  | succ n ih =>
    intro bound k
    rw [segTraceAux]
    split
    · simp
    · simpa using ih (bound + 200) (k + 1)

/-- The i-th attempt of the segmentation loop uses the size bound
`bound + 200 * i` when the loop is entered with bound `bound`. -/
theorem segTraceAux_bound (doc : List Char) (ext : Nat → List Char)
    (ver : Nat → Bool) :
    ∀ n bound k i a, (segTraceAux doc ext ver n bound k)[i]? = some a →
      a.bound = bound + 200 * i := by
  intro n
  induction n with
  | zero =>
    intro bound k i a h
    simp [segTraceAux] at h
  | succ n ih =>
    intro bound k i a h
    rw [segTraceAux] at h
    split at h
    · match i with
      | 0 =>
        simp only [List.getElem?_cons_zero, Option.some.injEq] at h
        simp [← h]
      | j + 1 =>
        simp at h
    · match i with
      | 0 =>
        simp only [List.getElem?_cons_zero, Option.some.injEq] at h
        simp [← h]
      | j + 1 =>
        simp only [List.getElem?_cons_succ] at h
        rw [ih (bound + 200) (k + 1) j a h]
        ring

/-- Cursor accounting for the driver loop: whenever the loop of `main`
terminates normally, the total of the consumed end indices plus the length
of the leftover document equals the initial count plus the initial document
length, and the leftover strips to the empty string. -/
theorem mainLoop_coverage (E : Nat → Nat → List Char)
    (V : Nat → Nat → Bool) (P : Nat → Nat → Correction)
    (Q : Nat → Nat → QAResult) :
    ∀ f doc consumed step tot rem,
      mainLoop E V P Q f doc consumed step = some (tot, rem) →
      tot + rem.length = consumed + doc.length ∧ trimChars rem = [] := by
  intro f
  induction f with
  | zero =>
    intro doc c s tot rem h
    rw [mainLoop] at h
    split at h
    · rename_i he
      obtain ⟨h1, h2⟩ := Prod.mk.injEq .. ▸ Option.some.injEq .. ▸ h
      subst h1
      subst h2
      exact ⟨rfl, he⟩
    · cases h
  | succ f ih =>
    intro doc c s tot rem h
    rw [mainLoop] at h
    split at h
    · rename_i he
      obtain ⟨h1, h2⟩ := Prod.mk.injEq .. ▸ Option.some.injEq .. ▸ h
      subst h1
      subst h2
      exact ⟨rfl, he⟩
    · simp only [process_sentence] at h
      have hrec := ih _ _ _ _ _ h
      have hle := segRun_end_le doc (E s) (V s) 5 500 0
      obtain ⟨hsum, hrem⟩ := hrec
      refine ⟨?_, hrem⟩
      rw [List.length_drop] at hsum
      omega

/-- Restatement of `psLoop_accepted_verdict` on the first projection. -/
theorem psLoop_fst_accepted_verdict (P : Nat → Correction)
    (Q : Nat → QAResult) (n pc qc : Nat) (c : Correction) (q : QAResult)
    (h : (psLoop P Q n pc qc).1 = .accepted c q) :
    q.is_valid = some true ∧ q.maintains_meaning = some true ∧
      q.technical_accuracy = some true := by
  apply psLoop_accepted_verdict P Q n pc qc c q
    (psLoop P Q n pc qc).2.1 (psLoop P Q n pc qc).2.2
  rw [← h]

/-- Restatement of `gcmLoop_accepted_verdict` on the first projection. -/
theorem gcmLoop_fst_accepted_verdict (P : Nat → Correction)
    (Q : Nat → QAResult) (innerFuel n pc qc : Nat) (last : Option Correction)
    (c : Correction) (q : QAResult)
    (h : (gcmLoop P Q innerFuel n pc qc last).1 = .accepted c q) :
    q.is_valid = some true ∧ q.maintains_meaning = some true ∧
      q.technical_accuracy = some true := by
  apply gcmLoop_accepted_verdict P Q innerFuel n pc qc last c q
    (gcmLoop P Q innerFuel n pc qc last).2.1
    (gcmLoop P Q innerFuel n pc qc last).2.2
  rw [← h]

/-- Concrete proposer stream: always confidence 0.3 (gated). -/
def propLow : Nat → Correction := fun _ => ⟨"x".toList, some (3 / 10), none⟩

/-- Concrete proposer stream: always confidence 0.9, proposing "b". -/
def propGood : Nat → Correction :=
  fun _ => ⟨"b".toList, some (9 / 10), some []⟩

/-- Concrete proposer stream: the confidence field is always missing. -/
def propNoConf : Nat → Correction := fun _ => ⟨"x".toList, none, none⟩

/-- Concrete QA stream: every reply is missing all three required fields. -/
def qaMissing : Nat → QAResult := fun _ => ⟨none, none, none, none⟩

/-- Concrete QA stream: every reply accepts with no concerns. -/
def qaAllTrue : Nat → QAResult :=
  fun _ => ⟨some true, some true, some true, some []⟩


/-- Claim C1: for every sentence processed by the correction loop, if no QA
verdict with all three booleans true is obtained within the retry budget,
the produced Result Entry keeps the original sentence as `final`, has
`has_changes = false`, and `qa_concerns = ["Failed to find valid
correction"]`.  Both correction loops of the repository are covered: the
one of `process_sentence` in `src/main.py` (budget 8) and the one of
`grammar_correction_main` in `src/correct.py` (budget 5). -/
theorem claim_C1_exhaustion_fallback :
    (∀ (P : Nat → Correction) (Q : Nat → QAResult) (s : List Char),
        (∀ c q, (psLoop P Q 8 0 0).1 ≠ PSLoopRes.accepted c q) →
        psEntryOf s (psLoop P Q 8 0 0).1 =
          { original := s, final := s, has_changes := false,
            qa_concerns := [failMsg], length := s.length,
            explanation := [] }) ∧
    (∀ (P : Nat → Correction) (Q : Nat → QAResult) (innerFuel : Nat)
        (orig : List Char) (e : GcmEntry),
        (∀ c q, (gcmLoop P Q innerFuel 5 0 0 none).1 ≠ GcmRes.accepted c q) →
        gcmEntryOf orig (gcmLoop P Q innerFuel 5 0 0 none).1 = some e →
        e = { original := orig, final := orig, has_changes := false,
              qa_concerns := [failMsg] }) := by
  constructor
  · intro P Q s hna
    cases hres : (psLoop P Q 8 0 0).1 with
    | accepted c q => exact absurd hres (hna c q)
    | exhausted => rfl
  · intro P Q innerFuel orig e hna he
    cases hres : (gcmLoop P Q innerFuel 5 0 0 none).1 with
    | accepted c q => exact absurd hres (hna c q)
    | exhausted last =>
      rw [hres] at he
      cases last with
      | none => simp [gcmEntryOf] at he
      | some c =>
        simp only [gcmEntryOf, Bool.and_false, Option.some.injEq] at he
        exact he.symm
    | keyError => rw [hres] at he; simp [gcmEntryOf] at he
    | diverged => rw [hres] at he; simp [gcmEntryOf] at he

/-- Witness for C1: with every proposal gated by low confidence, both loops
exhaust and produce the fallback entry. -/
theorem claim_C1_witness :
    psEntryOf "s".toList (psLoop propLow qaMissing 8 0 0).1 =
      { original := "s".toList, final := "s".toList, has_changes := false,
        qa_concerns := [failMsg], length := "s".toList.length,
        explanation := [] } ∧
    gcmEntryOf "s".toList (gcmLoop propLow qaMissing 1 5 0 0 none).1 =
      some { original := "s".toList, final := "s".toList,
             has_changes := false, qa_concerns := [failMsg] } := by
  have hps : (psLoop propLow qaMissing 8 0 0).1 = PSLoopRes.exhausted := by
    norm_num [psLoop, propLow, qaMissing]
  have hgcm : (gcmLoop propLow qaMissing 1 5 0 0 none).1 =
      GcmRes.exhausted (some (propLow 4)) := by
    norm_num [gcmLoop, propLow, qaMissing]
  have hent : gcmEntryOf "s".toList (gcmLoop propLow qaMissing 1 5 0 0 none).1 =
      some { original := "s".toList, final := "s".toList,
             has_changes :=
               decide ("s".toList ≠ (propLow 4).corrected_sentence) && false,
             qa_concerns := [failMsg] } := by
    rw [hgcm]; rfl
  constructor
  · exact claim_C1_exhaustion_fallback.1 propLow qaMissing "s".toList
      (fun c q h => by rw [hps] at h; exact PSLoopRes.noConfusion h)
  · have h2 := claim_C1_exhaustion_fallback.2 propLow qaMissing 1 "s".toList
      _ (fun c q h => by rw [hgcm] at h; exact GcmRes.noConfusion h) hent
    rw [hent, h2]

/-- Counterexample to C4 as stated: in the correction loop of
`process_sentence` (`src/main.py`, `max_correction_attempts = 8`), a
proposer that always reports confidence 0.3 is consulted 8 times before
the exhaustion fallback, which exceeds the claimed bound of 5. -/
theorem claim_C4_counterexample :
    psLoop propLow qaMissing 8 0 0 = (.exhausted, 8, 0) ∧ ¬(8 ≤ 5) := by
  constructor
  · norm_num [psLoop, propLow, qaMissing]
  · decide

/-- Claim C4, amended: the outer loop of `grammar_correction_main`
(`src/correct.py`, `max_attempts = 5`) obtains at most 5 proposals per
sentence, while the correction loop of `process_sentence` (`src/main.py`,
`max_correction_attempts = 8`) obtains at most 8. -/
theorem claim_C4_attempt_bounds :
    (∀ (P : Nat → Correction) (Q : Nat → QAResult) (innerFuel : Nat),
        (gcmLoop P Q innerFuel 5 0 0 none).2.1 ≤ 5) ∧
    (∀ (P : Nat → Correction) (Q : Nat → QAResult),
        (psLoop P Q 8 0 0).2.1 ≤ 8) :=
  ⟨fun P Q innerFuel => gcmLoop_calls_le P Q innerFuel 5 0 0 none,
   fun P Q => psLoop_calls_le P Q 8 0 0⟩

/-- Claim C3 (the intended bound): when the QA service keeps returning
verdicts that miss the required boolean fields, the inner QA loop of
`grammar_correction_main` never stops retrying: after any number `f` of QA
calls it is still running (`num_attempts` at `src/correct.py` line 116 is
never incremented, so the declared `max_qa_attempts = 5` bound is never
enforced), and in particular it performs more than the 5 QA calls the
claim allows. -/
theorem claim_C3_inner_qa_unbounded (Q : Nat → QAResult)
    (hQ : ∀ k, (Q k).is_valid = none) :
    (∀ f qc, innerQA Q f qc = (.fuelOut, qc + f)) ∧
      5 < (innerQA Q 6 0).2 := by
  refine ⟨innerQA_missing_fields Q hQ, ?_⟩
  rw [innerQA_missing_fields Q hQ 6 0]
  decide

/-- Witness for C3: the all-missing QA stream satisfies the hypothesis;
after 6 units of fuel the loop has made 6 QA calls and is still running. -/
theorem claim_C3_witness :
    innerQA qaMissing 6 0 = (.fuelOut, 0 + 6) ∧
      5 < (innerQA qaMissing 6 0).2 :=
  ⟨(claim_C3_inner_qa_unbounded qaMissing (fun _ => rfl)).1 6 0,
   (claim_C3_inner_qa_unbounded qaMissing (fun _ => rfl)).2⟩

/-- Counterexample to C5 as stated: in `grammar_correction_main`
(`src/correct.py` line 110, `float(correction["confidence"])`), a proposal
missing the confidence field raises `KeyError` and aborts the run after a
single proposer call, instead of being treated as one spent attempt of
five. -/
theorem claim_C5_counterexample :
    gcmLoop propNoConf qaMissing 1 5 0 0 none = (.keyError, 1, 0) ∧
      GcmRes.keyError ≠ GcmRes.exhausted (some (propNoConf 4)) ∧
      (1 : Nat) ≠ 5 := by
  refine ⟨?_, by decide, by decide⟩
  norm_num [gcmLoop, propNoConf]

/-- Claim C5, amended: in both correction loops a proposal with confidence
at most 0.5 never reaches the Validator and spends exactly one outer
attempt, after which the loop continues; a proposal with a missing
confidence field is treated as one spent attempt in `process_sentence`
(`src/main.py` lines 44-47), but in `grammar_correction_main` it raises
`KeyError` (`src/correct.py` line 110) and aborts instead.  Streams of
gated proposals therefore exhaust the budget with zero QA calls. -/
theorem claim_C5_confidence_gate :
    (∀ (P : Nat → Correction) (Q : Nat → QAResult) (n pc qc : Nat) (x : ℚ),
        (P pc).confidence = some x → x ≤ 1 / 2 →
        psLoop P Q (n + 1) pc qc = psLoop P Q n (pc + 1) qc) ∧
    (∀ (P : Nat → Correction) (Q : Nat → QAResult) (n pc qc : Nat),
        (P pc).confidence = none →
        psLoop P Q (n + 1) pc qc = psLoop P Q n (pc + 1) qc) ∧
    (∀ (P : Nat → Correction) (Q : Nat → QAResult)
        (innerFuel n pc qc : Nat) (last : Option Correction) (x : ℚ),
        (P pc).confidence = some x → x ≤ 1 / 2 →
        gcmLoop P Q innerFuel (n + 1) pc qc last =
          gcmLoop P Q innerFuel n (pc + 1) qc (some (P pc))) ∧
    (∀ (P : Nat → Correction) (Q : Nat → QAResult)
        (innerFuel n pc qc : Nat) (last : Option Correction),
        (P pc).confidence = none →
        gcmLoop P Q innerFuel (n + 1) pc qc last = (.keyError, pc + 1, qc)) ∧
    (∀ (P : Nat → Correction) (Q : Nat → QAResult),
        (∀ k, (P k).confidence = none ∨
          ∃ x, (P k).confidence = some x ∧ x ≤ 1 / 2) →
        psLoop P Q 8 0 0 = (.exhausted, 8, 0)) ∧
    (∀ (P : Nat → Correction) (Q : Nat → QAResult) (innerFuel : Nat),
        (∀ k, ∃ x, (P k).confidence = some x ∧ x ≤ 1 / 2) →
        gcmLoop P Q innerFuel 5 0 0 none =
          (.exhausted (some (P 4)), 5, 0)) := by
  refine ⟨psLoop_skip_lowconf, psLoop_skip_noconf, gcmLoop_skip_lowconf,
    ?_, ?_, ?_⟩
  · intro P Q innerFuel n pc qc last h
    rw [gcmLoop]
    simp only [h]
  · intro P Q hP
    exact psLoop_all_gated P Q hP 8 0 0
  · intro P Q innerFuel hP
    exact gcmLoop_all_lowconf P Q innerFuel hP 4 0 0 none

/-- Witness for C5: concrete gated streams. -/
theorem claim_C5_witness :
    psLoop propLow qaMissing 8 0 0 = psLoop propLow qaMissing 7 1 0 ∧
    psLoop propNoConf qaMissing 8 0 0 = psLoop propNoConf qaMissing 7 1 0 ∧
    gcmLoop propLow qaMissing 1 5 0 0 none =
      gcmLoop propLow qaMissing 1 4 1 0 (some (propLow 0)) ∧
    gcmLoop propNoConf qaMissing 1 5 0 0 none = (.keyError, 1, 0) ∧
    psLoop propLow qaMissing 8 0 0 = (.exhausted, 8, 0) ∧
    gcmLoop propLow qaMissing 1 5 0 0 none =
      (.exhausted (some (propLow 4)), 5, 0) :=
  ⟨claim_C5_confidence_gate.1 propLow qaMissing 7 0 0 (3 / 10) rfl
      (by norm_num),
   claim_C5_confidence_gate.2.1 propNoConf qaMissing 7 0 0 rfl,
   claim_C5_confidence_gate.2.2.1 propLow qaMissing 1 4 0 0 none (3 / 10)
      rfl (by norm_num),
   claim_C5_confidence_gate.2.2.2.1 propNoConf qaMissing 1 4 0 0 none rfl,
   claim_C5_confidence_gate.2.2.2.2.1 propLow qaMissing
      (fun k => Or.inr ⟨3 / 10, rfl, by norm_num⟩),
   claim_C5_confidence_gate.2.2.2.2.2 propLow qaMissing 1
      (fun k => ⟨3 / 10, rfl, by norm_num⟩)⟩

/-- Claim C6: a Result Entry has `has_changes = true` only if some QA
verdict for that sentence had `is_valid`, `maintains_meaning` and
`technical_accuracy` all true simultaneously (the accepting verdict); a
verdict with any field false or missing never yields acceptance.  Covered
for both correction loops. -/
theorem claim_C6_verdict_conjunction :
    (∀ (P : Nat → Correction) (Q : Nat → QAResult) (s : List Char),
        (psEntryOf s (psLoop P Q 8 0 0).1).has_changes = true →
        ∃ c q, (psLoop P Q 8 0 0).1 = PSLoopRes.accepted c q ∧
          q.is_valid = some true ∧ q.maintains_meaning = some true ∧
          q.technical_accuracy = some true) ∧
    (∀ (P : Nat → Correction) (Q : Nat → QAResult) (innerFuel : Nat)
        (orig : List Char) (e : GcmEntry),
        gcmEntryOf orig (gcmLoop P Q innerFuel 5 0 0 none).1 = some e →
        e.has_changes = true →
        ∃ c q, (gcmLoop P Q innerFuel 5 0 0 none).1 = GcmRes.accepted c q ∧
          q.is_valid = some true ∧ q.maintains_meaning = some true ∧
          q.technical_accuracy = some true) := by
  constructor
  · intro P Q s h
    cases hres : (psLoop P Q 8 0 0).1 with
    | exhausted =>
      rw [hres] at h
      simp [psEntryOf] at h
    | accepted c q =>
      obtain ⟨h1, h2, h3⟩ := psLoop_fst_accepted_verdict P Q 8 0 0 c q hres
      exact ⟨c, q, rfl, h1, h2, h3⟩
  · intro P Q innerFuel orig e he hch
    cases hres : (gcmLoop P Q innerFuel 5 0 0 none).1 with
    | accepted c q =>
      obtain ⟨h1, h2, h3⟩ :=
        gcmLoop_fst_accepted_verdict P Q innerFuel 5 0 0 none c q hres
      exact ⟨c, q, rfl, h1, h2, h3⟩
    | exhausted last =>
      rw [hres] at he
      cases last with
      | none => simp [gcmEntryOf] at he
      | some c =>
        simp only [gcmEntryOf, Bool.and_false, Option.some.injEq] at he
        rw [← he] at hch
        simp at hch
    | keyError => rw [hres] at he; simp [gcmEntryOf] at he
    | diverged => rw [hres] at he; simp [gcmEntryOf] at he

/-- Witness for C6: a confident proposal differing from the original plus
an all-true verdict yields an accepted entry with changes. -/
theorem claim_C6_witness :
    (psEntryOf "a".toList (psLoop propGood qaAllTrue 8 0 0).1).has_changes =
        true ∧
    (∃ c q, (psLoop propGood qaAllTrue 8 0 0).1 = PSLoopRes.accepted c q ∧
      q.is_valid = some true ∧ q.maintains_meaning = some true ∧
      q.technical_accuracy = some true) := by
  have hch : (psEntryOf "a".toList
      (psLoop propGood qaAllTrue 8 0 0).1).has_changes = true := by
    norm_num [psLoop, propGood, qaAllTrue, psEntryOf]
    decide
  exact ⟨hch, claim_C6_verdict_conjunction.1 propGood qaAllTrue "a".toList hch⟩

/-- Claim C10: a Result Entry has `has_changes = true` exactly when QA
passed (a proposal was accepted) and the accepted corrected sentence
differs from the original; on acceptance `final` is the corrected
sentence, so an accepted correction identical to the original is recorded
with `has_changes = false` and `final = original`.  Covered for both
correction loops. -/
theorem claim_C10_has_changes_iff :
    (∀ (P : Nat → Correction) (Q : Nat → QAResult) (s : List Char),
        ((psEntryOf s (psLoop P Q 8 0 0).1).has_changes = true ↔
          ∃ c q, (psLoop P Q 8 0 0).1 = PSLoopRes.accepted c q ∧
            c.corrected_sentence ≠ s) ∧
        (∀ c q, (psLoop P Q 8 0 0).1 = PSLoopRes.accepted c q →
          (psEntryOf s (psLoop P Q 8 0 0).1).final = c.corrected_sentence)) ∧
    (∀ (P : Nat → Correction) (Q : Nat → QAResult) (innerFuel : Nat)
        (orig : List Char) (e : GcmEntry),
        gcmEntryOf orig (gcmLoop P Q innerFuel 5 0 0 none).1 = some e →
        ((e.has_changes = true ↔
          ∃ c q, (gcmLoop P Q innerFuel 5 0 0 none).1 = GcmRes.accepted c q ∧
            c.corrected_sentence ≠ orig) ∧
         (∀ c q, (gcmLoop P Q innerFuel 5 0 0 none).1 = GcmRes.accepted c q →
            e.final = c.corrected_sentence))) := by
  constructor
  · intro P Q s
    cases hres : (psLoop P Q 8 0 0).1 with
    | exhausted =>
      constructor
      · simp [psEntryOf]
      · intro c q h
        cases h
    | accepted c q =>
      constructor
      · simp only [psEntryOf, decide_eq_true_eq]
        constructor
        · intro hne
          exact ⟨c, q, rfl, fun hcs => hne (by rw [hcs])⟩
        · rintro ⟨c2, q2, heq, hne⟩
          obtain ⟨rfl, rfl⟩ : c2 = c ∧ q2 = q := by
            cases heq
            exact ⟨rfl, rfl⟩
          intro hs
          exact hne (by rw [hs])
      · intro c2 q2 h
        cases h
        rfl
  · intro P Q innerFuel orig e he
    cases hres : (gcmLoop P Q innerFuel 5 0 0 none).1 with
    | accepted c q =>
      rw [hres] at he
      simp only [gcmEntryOf, Bool.and_true, Option.some.injEq] at he
      subst he
      constructor
      · simp only [decide_eq_true_eq]
        constructor
        · intro hne
          exact ⟨c, q, rfl, fun hcs => hne (by rw [hcs])⟩
        · rintro ⟨c2, q2, heq, hne⟩
          obtain ⟨rfl, rfl⟩ : c2 = c ∧ q2 = q := by
            cases heq
            exact ⟨rfl, rfl⟩
          intro hs
          exact hne (by rw [hs])
      · intro c2 q2 h
        cases h
        rfl
    | exhausted last =>
      rw [hres] at he
      cases last with
      | none => simp [gcmEntryOf] at he
      | some c =>
        simp only [gcmEntryOf, Bool.and_false, Option.some.injEq] at he
        subst he
        constructor
        · simp
        · intro c2 q2 h
          cases h
    | keyError => rw [hres] at he; simp [gcmEntryOf] at he
    | diverged => rw [hres] at he; simp [gcmEntryOf] at he

/-- Witness for C10: an accepted no-op correction (the proposal equals the
original sentence) is recorded with `has_changes = false` and
`final = original`. -/
theorem claim_C10_witness :
    ((psEntryOf "b".toList (psLoop propGood qaAllTrue 8 0 0).1).has_changes =
        true ↔
      ∃ c q, (psLoop propGood qaAllTrue 8 0 0).1 = PSLoopRes.accepted c q ∧
        c.corrected_sentence ≠ "b".toList) ∧
    (psEntryOf "b".toList (psLoop propGood qaAllTrue 8 0 0).1).final =
      (propGood 0).corrected_sentence ∧
    (psEntryOf "b".toList (psLoop propGood qaAllTrue 8 0 0).1).has_changes =
      false := by
  have hres : (psLoop propGood qaAllTrue 8 0 0).1 =
      PSLoopRes.accepted (propGood 0) (qaAllTrue 0) := by
    norm_num [psLoop, propGood, qaAllTrue]
  refine ⟨(claim_C10_has_changes_iff.1 propGood qaAllTrue "b".toList).1,
    (claim_C10_has_changes_iff.1 propGood qaAllTrue "b".toList).2
      (propGood 0) (qaAllTrue 0) hres, ?_⟩
  rw [hres]
  simp [psEntryOf, propGood]

/-- Concrete extractor stream for the driver: always replies "a". -/
def extA : Nat → Nat → List Char := fun _ _ => "a".toList

/-- Concrete verifier stream for the driver: always valid. -/
def verTrue : Nat → Nat → Bool := fun _ _ => true

/-- Concrete driver-indexed proposer stream. -/
def propGoodD : Nat → Nat → Correction := fun _ => propGood

/-- Concrete driver-indexed QA stream. -/
def qaAllTrueD : Nat → Nat → QAResult := fun _ => qaAllTrue

/-- Counterexample to C2 as stated: on the document "a " (letter then
space) with an extractor that returns "a" and a verifier that accepts, the
driver consumes 1 character, then stops because the remaining document
" " strips to empty; the consumed total 1 differs from the document length
2, so the sum of end indices does not equal the document length. -/
theorem claim_C2_counterexample :
    mainLoop extA verTrue propGoodD qaAllTrueD 2 "a ".toList 0 0 =
      some (1, " ".toList) ∧ (1 : Nat) ≠ "a ".toList.length := by
  constructor
  · decide
  · decide

/-- Claim C2, amended: the driver loops until the stripped remaining
document is empty, advancing by exactly the end index returned by
segmentation; on termination the consumed total plus the length of the
leftover (whitespace-only) suffix equals the original document length, so
the total equals the document length exactly when nothing is left. -/
theorem claim_C2_coverage_amended (E : Nat → Nat → List Char)
    (V : Nat → Nat → Bool) (P : Nat → Nat → Correction)
    (Q : Nat → Nat → QAResult) (f : Nat) (doc : List Char) (tot : Nat)
    (rem : List Char) (h : mainLoop E V P Q f doc 0 0 = some (tot, rem)) :
    tot + rem.length = doc.length ∧ trimChars rem = [] := by
  have := mainLoop_coverage E V P Q f doc 0 0 tot rem h
  simpa using this

/-- Witness for C2: the concrete two-character run. -/
theorem claim_C2_witness :
    1 + " ".toList.length = "a ".toList.length ∧ trimChars " ".toList = [] :=
  claim_C2_coverage_amended extA verTrue propGoodD qaAllTrueD 2 "a ".toList
    1 " ".toList (by decide)

/-- Claim C7: the segmentation loop starts with a size bound of 500,
increments the bound by 200 after each failed verification attempt, makes
at most 5 attempts, and when all 5 attempts fail it returns the last
attempt's sentence and end index (bound 1300, the 5th extractor reply)
with the verification flag false, instead of blocking or discarding the
position. -/
theorem claim_C7_segmentation_schedule (doc : List Char)
    (ext : Nat → List Char) (ver : Nat → Bool) :
    (segTrace doc ext ver).length ≤ 5 ∧
    (∀ i a, (segTrace doc ext ver)[i]? = some a →
      a.bound = 500 + 200 * i) ∧
    ((∀ k, k < 5 → ver k = false) →
      segRun doc ext ver 5 500 0 =
        ((extract_sentence_from_queue doc 1300 (ext 4)).1,
         (extract_sentence_from_queue doc 1300 (ext 4)).2, false)) := by
  refine ⟨segTraceAux_length_le doc ext ver 5 500 0,
    fun i a h => segTraceAux_bound doc ext ver 5 500 0 i a h, ?_⟩
  intro hv
  have h0 := hv 0 (by omega)
  have h1 := hv 1 (by omega)
  have h2 := hv 2 (by omega)
  have h3 := hv 3 (by omega)
  have h4 := hv 4 (by omega)
  rw [segRun.eq_def]
  simp only [h0, Bool.false_eq_true, if_false]
  rw [segRun.eq_def]
  simp only [h1, Bool.false_eq_true, if_false]
  rw [segRun.eq_def]
  simp only [h2, Bool.false_eq_true, if_false]
  rw [segRun.eq_def]
  simp only [h3, Bool.false_eq_true, if_false]
  rw [segRun.eq_def]
  simp only [h4, Bool.false_eq_true, if_false]

/-- Witness for C7: a concrete always-failing verifier run on "ab". -/
theorem claim_C7_witness :
    (segTrace "ab".toList (fun _ => "zz".toList) (fun _ => false)).length ≤
        5 ∧
    (segTrace "ab".toList (fun _ => "zz".toList)
        (fun _ => false))[0]?.map SegAttempt.bound = some 500 ∧
    segRun "ab".toList (fun _ => "zz".toList) (fun _ => false) 5 500 0 =
      ("zz".toList, 2, false) := by
  obtain ⟨hlen, hbound, hrun⟩ := claim_C7_segmentation_schedule "ab".toList
    (fun _ => "zz".toList) (fun _ => false)
  refine ⟨hlen, ?_, ?_⟩
  · have := hbound 0 ⟨500, "zz".toList, 2, false⟩ (by decide)
    decide
  · rw [hrun (fun k _ => rfl)]
    decide

/-- Claim C8: whenever the extractor's (stripped) reply is not found
verbatim in the searched chunk, extraction does not abort: it returns the
extracted text together with an end index equal to the full chunk length,
so the caller consumes the entire chunk. -/
theorem claim_C8_extractor_fallback (text : List Char) (max_chunk : Nat)
    (resp : List Char)
    (h : subFind (text.take max_chunk) (trimChars resp) = none) :
    extract_sentence_from_queue text max_chunk resp =
      (trimChars resp, (text.take max_chunk).length) := by
  simp only [extract_sentence_from_queue, h]

/-- Witness for C8: reply "zz" does not occur in the chunk "ab". -/
theorem claim_C8_witness :
    extract_sentence_from_queue "ab".toList 500 "zz".toList =
      (trimChars "zz".toList, ("ab".toList.take 500).length) :=
  claim_C8_extractor_fallback "ab".toList 500 "zz".toList (by decide)

/-- Counterexample to C9 as stated: on the non-empty document "ab", an
extractor reply that strips to the empty string yields `end_index = 0`
(`"".find` succeeds at index 0 with length 0), so the driver would make no
progress on that step. -/
theorem claim_C9_counterexample :
    extract_sentence_from_queue "ab".toList 500 "".toList = ([], 0) ∧
      ¬(1 ≤ (extract_sentence_from_queue "ab".toList 500 "".toList).2) := by
  constructor
  · decide
  · decide

/-- Claim C9, amended: whenever the document is non-empty, the size bound
is at least 1 (the segmentation loop always uses bounds of at least 500),
and the stripped extractor reply is non-empty, each extraction consumes at
least one character; consequently the segmentation loop consumes at least
one character and the driver's document strictly shrinks on that step. -/
theorem claim_C9_progress (doc : List Char) (ext : Nat → List Char)
    (ver : Nat → Bool) (max_chunk : Nat) (resp : List Char)
    (hdoc : doc ≠ []) (hmc : 1 ≤ max_chunk)
    (hresp0 : trimChars resp ≠ [])
    (hresp : ∀ j, trimChars (ext j) ≠ []) :
    1 ≤ (extract_sentence_from_queue doc max_chunk resp).2 ∧
    1 ≤ (segRun doc ext ver 5 500 0).2.1 ∧
    (doc.drop (segRun doc ext ver 5 500 0).2.1).length < doc.length := by
  refine ⟨extract_end_pos doc max_chunk resp hdoc hmc hresp0, ?_, ?_⟩
  · exact segRun_end_pos doc ext ver hdoc hresp 5 500 0 (by omega) (by omega)
  · have h1 := segRun_end_pos doc ext ver hdoc hresp 5 500 0 (by omega)
      (by omega)
    have h2 := segRun_end_le doc ext ver 5 500 0
    have h3 : 0 < doc.length := List.length_pos.mpr hdoc
    rw [List.length_drop]
    omega

/-- Witness for C9: a concrete non-empty document and reply. -/
theorem claim_C9_witness :
    1 ≤ (extract_sentence_from_queue "ab".toList 500 "z".toList).2 ∧
    1 ≤ (segRun "ab".toList (fun _ => "z".toList) (fun _ => true)
      5 500 0).2.1 ∧
    ("ab".toList.drop (segRun "ab".toList (fun _ => "z".toList)
      (fun _ => true) 5 500 0).2.1).length < "ab".toList.length :=
  claim_C9_progress "ab".toList (fun _ => "z".toList) (fun _ => true) 500
    "z".toList (by decide) (by decide) (by decide)
    (fun j => show trimChars "z".toList ≠ [] by decide)
